import Mathlib

/-!
Shallow embedding of parts of the zerobrew package installer
(crates zb_cli and zb_io), together with proofs about them.

Rust strings are modelled as `List Char`; Rust `Option`/`Result` become
`Option`/`Except`.  Filesystem and process effects are modelled by passing
the relevant state or outcomes explicitly.
-/

namespace Zerobrew

/-- Relevant variants of the `zb_core::Error` enum. -/
inductive ZbError where
  | FileError : List Char → ZbError
  | ExecutionError : List Char → ZbError
deriving DecidableEq

/-- Convert a Lean string literal to the `List Char` model of Rust strings. -/
def toChars (s : String) : List Char := s.toList

/-- The double-quote character. -/
def quoteChar : Char := Char.ofNat 34

/-- The single-quote character. -/
def squoteChar : Char := Char.ofNat 39

/-- The newline character. -/
def nlChar : Char := Char.ofNat 10

/-- The carriage-return character. -/
def crChar : Char := Char.ofNat 13

/-- Rust `char::is_whitespace` (the Unicode White_Space property). -/
def rustIsWhitespace (c : Char) : Bool :=
  decide ((0x9 ≤ c.toNat ∧ c.toNat ≤ 0xD) ∨ c.toNat = 0x20 ∨ c.toNat = 0x85 ∨
    c.toNat = 0xA0 ∨ c.toNat = 0x1680 ∨ (0x2000 ≤ c.toNat ∧ c.toNat ≤ 0x200A) ∨
    c.toNat = 0x2028 ∨ c.toNat = 0x2029 ∨ c.toNat = 0x202F ∨ c.toNat = 0x205F ∨
    c.toNat = 0x3000)

/-- Rust `str::trim_start`. -/
def trimLeft (l : List Char) : List Char := l.dropWhile rustIsWhitespace

/-- Rust `str::trim_end`. -/
def trimRight (l : List Char) : List Char := (l.reverse.dropWhile rustIsWhitespace).reverse

/-- Rust `str::trim`. -/
def rustTrim (l : List Char) : List Char := trimRight (trimLeft l)

/-- Strip one trailing carriage return, as Rust `str::lines` does per line. -/
def stripCR (l : List Char) : List Char :=
  match l.getLast? with
  | some c => if c = crChar then l.dropLast else l
  | none => l

/-- Helper for `rustLines`: split the remaining input at newline characters,
`acc` holding the reversed characters of the current line. -/
def rustLinesAux : List Char → List Char → List (List Char)
  | [], acc => [stripCR acc.reverse]
  | c :: rest, acc =>
    if c = nlChar then
      stripCR acc.reverse :: (if rest.isEmpty then [] else rustLinesAux rest [])
    else
      rustLinesAux rest (c :: acc)

/-- Rust `str::lines`: newline-separated lines, a final trailing newline
producing no extra empty line, each line stripped of one trailing CR. -/
def rustLines (s : List Char) : List (List Char) :=
  if s.isEmpty then [] else rustLinesAux s []

/-- `parse_quoted_directive` from `zb_cli/src/commands/bundle.rs`:
if `line` starts with `directive` followed (after leading whitespace) by a
quoted token, return the token. -/
def parse_quoted_directive (line directive : List Char) : Option (List Char) :=
  if directive.isPrefixOf line then
    match trimLeft (line.drop directive.length) with
    | [] => none
    | q :: tail =>
      if q = quoteChar ∨ q = squoteChar then
        if tail.contains q then some (tail.takeWhile (fun c => c != q)) else none
      else none
  else none

/-- `parse_brewfile_entry` from `zb_cli/src/commands/bundle.rs`. -/
def parse_brewfile_entry (line : List Char) : Option (List Char) :=
  if (toChars "tap ").isPrefixOf line then none
  else
    match parse_quoted_directive line (toChars "cask") with
    | some token => some (toChars "cask:" ++ token)
    | none =>
      match parse_quoted_directive line (toChars "brew") with
      | some formula => some formula
      | none => some line

/-- The body of `load_manifest`'s per-line processing: strip the inline `#`
comment, trim, skip empty lines, then parse the Brewfile entry. -/
def parseManifestLine (line : List Char) : Option (List Char) :=
  let entry := rustTrim (line.takeWhile (fun c => c != '#'))
  if entry.isEmpty then none else parse_brewfile_entry entry

/-- The loop of `load_manifest`: accumulate parsed entries, skipping any
token already in the `seen` set. -/
def loadManifestAux : List (List Char) → List (List Char) → List (List Char)
  | [], _ => []
  | l :: ls, seen =>
    match parseManifestLine l with
    | none => loadManifestAux ls seen
    | some p => if seen.contains p then loadManifestAux ls seen else p :: loadManifestAux ls (p :: seen)

/-- The formula list computed by `load_manifest` from the manifest text. -/
def load_manifest_core (contents : List Char) : List (List Char) :=
  loadManifestAux (rustLines contents) []

/-- `load_manifest` from `zb_cli/src/commands/bundle.rs`, given the file's
contents (the read itself is effectful and modelled away); returns a
`FileError` when no formulas were found. -/
def load_manifest (path contents : List Char) : Except ZbError (List (List Char)) :=
  let formulas := load_manifest_core contents
  if formulas.isEmpty then
    .error (.FileError (toChars "manifest " ++ path ++ toChars " did not contain any formulas"))
  else .ok formulas

/-- The tokens produced line by line before deduplication (specification
side of the dedup property). -/
def manifestTokens (contents : List Char) : List (List Char) :=
  (rustLines contents).filterMap parseManifestLine

/-- First-seen-order deduplication, written independently of the `seen`-set
loop: keep each element's first occurrence, drop later duplicates. -/
def dedupFirst : List (List Char) → List (List Char)
  | [] => []
  | x :: xs => x :: (dedupFirst xs).filter (fun y => y != x)

/-- The Brewfile line `dump_to_file` writes for one installed keg:
`brew "<name>"` followed by a newline. -/
def brewDumpLine (name : List Char) : List Char :=
  toChars "brew " ++ quoteChar :: (name ++ quoteChar :: [nlChar])

/-- The manifest text `dump_to_file` accumulates for the installed kegs. -/
def dumpContent (installed : List (List Char)) : List Char :=
  installed.foldl (fun acc keg => acc ++ brewDumpLine keg) []

/-- The error message `dump_to_file` produces for an existing target file. -/
def alreadyExistsMsg (path : List Char) : List Char :=
  toChars "file " ++ path ++ toChars " already exists (use --force to overwrite)"

/-- `dump_to_file` from `zb_cli/src/commands/bundle.rs`, over an explicit
file-system state: whether the target exists, its old contents, and the
installed keg names.  Returns the command result paired with the target
file's contents after the call. -/
def dump_to_file (path : List Char) (fileExists force : Bool) (oldContent : List Char)
    (installed : List (List Char)) : Except ZbError Unit × List Char :=
  if fileExists && !force then
    (.error (.FileError (alreadyExistsMsg path)), oldContent)
  else
    (.ok (), dumpContent installed)

/-! ## Build executor (`zb_io/src/build/executor.rs`) -/

/-- The bound of the output tail buffers in `stream_output_and_capture_tail`. -/
def TAIL_LINES : Nat := 40

/-- One iteration of the tail loop: when the buffer is full, pop the oldest
line from the front, then push the new line at the back. -/
def tailStep (tail : List (List Char)) (line : List Char) : List (List Char) :=
  (if tail.length = TAIL_LINES then tail.drop 1 else tail) ++ [line]

/-- The tail buffer `stream_output_and_capture_tail` returns for a stream
consisting of the given lines. -/
def capture_tail (lines : List (List Char)) : List (List Char) :=
  lines.foldl tailStep []

/-- The interpreter candidates tried by `find_ruby`, in order. -/
def ruby_candidates : List (List Char) := [toChars "ruby", toChars "/usr/bin/ruby"]

/-- The error message `find_ruby` produces when no candidate works. -/
def rubyMissingMsg : List Char := toChars "ruby not found — required for building from source"

/-- `find_ruby`: try each candidate in order and return the first whose
`--version` invocation succeeds; `versionOk` tells which candidates do. -/
def find_ruby (versionOk : List Char → Bool) : Except ZbError (List Char) :=
  match ruby_candidates.find? versionOk with
  | some candidate => .ok candidate
  | none => .error (.ExecutionError rubyMissingMsg)

/-- Rust `Debug` rendering of the `Option<i32>` exit code in `run_build`. -/
def exitCodeDebug (code : Option Int) : List Char :=
  match code with
  | some n => toChars "Some(" ++ toChars (toString n) ++ [')']
  | none => toChars "None"

/-- The outcome of `run_build` as a function of the child's exit code and
the two captured tails: `Ok` on exit code 0, otherwise an `ExecutionError`
carrying the exit code and the stderr tail (stdout tail when stderr's is
empty). -/
def run_build_result (code : Option Int) (stdout_tail stderr_tail : List (List Char)) :
    Except ZbError Unit :=
  if code = some 0 then .ok ()
  else
    let msg := toChars "source build failed (exit code: " ++ exitCodeDebug code ++ [')']
    let tail := if !stderr_tail.isEmpty then stderr_tail else stdout_tail
    let msg := if !tail.isEmpty then msg ++ nlChar :: List.intercalate [nlChar] tail else msg
    .error (.ExecutionError msg)

instance {ε α : Type} [DecidableEq ε] [DecidableEq α] : DecidableEq (Except ε α)
  | .ok a, .ok b =>
    if h : a = b then isTrue (by rw [h]) else isFalse (fun hh => h (by cases hh; rfl))
  | .ok _, .error _ => isFalse (fun hh => Except.noConfusion hh)
  | .error _, .ok _ => isFalse (fun hh => Except.noConfusion hh)
  | .error e, .error f =>
    if h : e = f then isTrue (by rw [h]) else isFalse (fun hh => h (by cases hh; rfl))

/-- The per-step outcomes `BuildExecutor::execute` observes, in program
order: preparing the work dir, downloading and extracting the source,
writing the shim, creating the cellar dir, locating ruby, running the build. -/
structure BuildStepOutcomes where
  prepare : Except ZbError Unit
  download : Except ZbError Unit
  shim_write : Except ZbError Unit
  cellar_create : Except ZbError Unit
  ruby_lookup : Except ZbError Unit
  build_run : Except ZbError Unit
deriving DecidableEq

/-- `BuildExecutor::execute`, modelled over explicit step outcomes.  The
returned `Bool` records whether the per-formula work directory still exists
when the call returns: `prepare_work_dir` creates it, every `?` early
return leaves it in place, and only the success path reaches
`cleanup_work_dir`. -/
def executeModel (o : BuildStepOutcomes) : Except ZbError Unit × Bool :=
  match o.prepare with
  | .error e => (.error e, false)
  | .ok _ =>
    match o.download with
    | .error e => (.error e, true)
    | .ok _ =>
      match o.shim_write with
      | .error e => (.error e, true)
      | .ok _ =>
        match o.cellar_create with
        | .error e => (.error e, true)
        | .ok _ =>
          match o.ruby_lookup with
          | .error e => (.error e, true)
          | .ok _ =>
            match o.build_run with
            | .error e => (.error e, true)
            | .ok _ => (.ok (), false)

/-! ## Concurrency flag (`zb_cli/src/cli.rs`) -/

/-- `usize::MAX`, with `usize` modelled as 64 bits wide. -/
def usizeMax : Nat := 2 ^ 64 - 1

/-- Rust `char::to_digit(10)`. -/
def digitVal (c : Char) : Option Nat :=
  if c.isDigit then some (c.toNat - 48) else none

/-- The digit loop of `usize::from_str`: checked multiply-add each digit,
failing on a non-digit or on overflow past `usize::MAX`. -/
def parseUsizeAux : List Char → Nat → Option Nat
  | [], acc => some acc
  | c :: cs, acc =>
    match digitVal c with
    | none => none
    | some d => if acc * 10 + d ≤ usizeMax then parseUsizeAux cs (acc * 10 + d) else none

/-- Rust `str::parse::<usize>()`: an optional leading `+`, then a non-empty
run of digits, rejecting overflow. -/
def parseUsize (s : List Char) : Option Nat :=
  match s with
  | [] => none
  | c :: cs =>
    if c = '+' then
      match cs with
      | [] => none
      | _ => parseUsizeAux cs 0
    else parseUsizeAux s 0

/-- `parse_concurrency` from `zb_cli/src/cli.rs`. -/
def parse_concurrency (value : List Char) : Except (List Char) Nat :=
  match parseUsize value with
  | none =>
    .error (toChars "invalid value " ++ squoteChar :: value ++
      squoteChar :: toChars ": expected a positive integer")
  | some parsed =>
    if parsed = 0 then .error (toChars "concurrency must be at least 1")
    else .ok parsed

/-- The value clap assigns to `--concurrency` when the flag is absent:
the declared `default_value` string `"20"` run through the parser. -/
def concurrencyDefault : Except (List Char) Nat := parse_concurrency (toChars "20")

/-- The decimal value denoted by a digit string (specification side). -/
def decValue (s : List Char) : Nat :=
  s.foldl (fun acc c => acc * 10 + (c.toNat - 48)) 0

/-- Substring test: does `needle` occur contiguously inside the second list? -/
def containsSeq (needle : List Char) : List Char → Bool
  | [] => needle.isPrefixOf []
  | h :: t => needle.isPrefixOf (h :: t) || containsSeq needle t

/-- Deduplication relative to an already-seen set, mirroring the shape of
`loadManifestAux` on the token list (specification-side helper). -/
def dedupSeen : List (List Char) → List (List Char) → List (List Char)
  | _, [] => []
  | seen, x :: xs =>
    if seen.contains x then dedupSeen seen xs else x :: dedupSeen (x :: seen) xs

/-- A `brew "<name>"` manifest line, without the trailing newline. -/
def brewManifestLine (name : List Char) : List Char :=
  toChars "brew " ++ quoteChar :: (name ++ [quoteChar])

/-- A `cask "<name>"` manifest line, without the trailing newline. -/
def caskManifestLine (name : List Char) : List Char :=
  toChars "cask " ++ quoteChar :: (name ++ [quoteChar])

/-- The manifest text of spec scenario S4:
a comment line, `brew "wget"`, `cask "docker"` and `tap "x"`. -/
def exampleManifest : List Char :=
  toChars "# comment" ++ nlChar :: brewManifestLine (toChars "wget") ++
    nlChar :: caskManifestLine (toChars "docker") ++
    nlChar :: (toChars "tap " ++ quoteChar :: (toChars "x" ++ [quoteChar]))

/-! ## Helper lemmas -/

theorem takeWhile_bne_of_not_mem (l : List Char) (c : Char) (h : c ∉ l) :
    l.takeWhile (fun x => x != c) = l := by
  induction l with
  | nil => rfl
  | cons a t ih =>
    simp only [List.mem_cons, not_or] at h
    have hac : (a != c) = true := by
      simp only [bne_iff_ne, ne_eq]
      exact fun e => h.1 e.symm
    simp only [List.takeWhile_cons, hac, if_true]
    rw [ih h.2]

theorem takeWhile_bne_append (X r : List Char) (q : Char) (h : q ∉ X) :
    (X ++ q :: r).takeWhile (fun x => x != q) = X := by
  induction X with
  | nil => simp [List.takeWhile_cons]
  | cons a t ih =>
    simp only [List.mem_cons, not_or] at h
    have hac : (a != q) = true := by
      simp only [bne_iff_ne, ne_eq]
      exact fun e => h.1 e.symm
    simp only [List.cons_append, List.takeWhile_cons, hac, if_true]
    rw [ih h.2]

theorem contains_append_cons_self (X r : List Char) (q : Char) :
    (X ++ q :: r).contains q = true := by
  simp

theorem trimLeft_cons_ws (c : Char) (l : List Char) (h : rustIsWhitespace c = true) :
    trimLeft (c :: l) = trimLeft l := by
  simp [trimLeft, List.dropWhile_cons, h]

theorem trimLeft_cons_not_ws (c : Char) (l : List Char) (h : rustIsWhitespace c = false) :
    trimLeft (c :: l) = c :: l := by
  simp [trimLeft, List.dropWhile_cons, h]

theorem trimRight_append_not_ws (c : Char) (l : List Char) (h : rustIsWhitespace c = false) :
    trimRight (l ++ [c]) = l ++ [c] := by
  simp [trimRight, List.reverse_append, List.dropWhile_cons, h]

theorem rustTrim_keep (a b : Char) (l : List Char) (ha : rustIsWhitespace a = false)
    (hb : rustIsWhitespace b = false) :
    rustTrim (a :: (l ++ [b])) = a :: (l ++ [b]) := by
  rw [rustTrim, trimLeft_cons_not_ws _ _ ha]
  have : a :: (l ++ [b]) = (a :: l) ++ [b] := by simp
  rw [this, trimRight_append_not_ws _ _ hb]

theorem stripCR_append_not_cr (l : List Char) (c : Char) (h : c ≠ crChar) :
    stripCR (l ++ [c]) = l ++ [c] := by
  simp [stripCR, List.getLast?_concat, h]

theorem containsSeq_of_infix (pre n post : List Char) :
    containsSeq n (pre ++ (n ++ post)) = true := by
  induction pre with
  | nil =>
    have hp : n.isPrefixOf (n ++ post) = true :=
      List.isPrefixOf_iff_prefix.mpr (List.prefix_append n post)
    rw [List.nil_append]
    cases hnp : n ++ post with
    | nil =>
      have : n = [] := by
        rcases List.append_eq_nil.mp hnp with ⟨h1, _⟩
        exact h1
      simp [containsSeq, this, List.isPrefixOf]
    | cons h t =>
      rw [hnp] at hp
      simp [containsSeq, hp]
  | cons p pre ih =>
    simp [containsSeq, ih]

theorem rustLinesAux_append (line : List Char) (h : nlChar ∉ line) :
    ∀ (acc rest : List Char),
      rustLinesAux (line ++ nlChar :: rest) acc =
        stripCR (acc.reverse ++ line) :: (if rest.isEmpty then [] else rustLinesAux rest []) := by
  induction line with
  | nil =>
    intro acc rest
    simp [rustLinesAux]
  | cons c t ih =>
    intro acc rest
    simp only [List.mem_cons, not_or] at h
    have hc : ¬ c = nlChar := fun e => h.1 e.symm
    simp only [List.cons_append, rustLinesAux, if_neg hc, List.append_eq]
    rw [ih h.2 (c :: acc) rest]
    simp

theorem rustLines_append_line (line rest : List Char) (h : nlChar ∉ line) :
    rustLines (line ++ nlChar :: rest) = stripCR line :: rustLines rest := by
  have hne : (line ++ nlChar :: rest).isEmpty = false := by
    cases line <;> simp [List.isEmpty]
  rw [rustLines, if_neg (by simp [hne])]
  rw [rustLinesAux_append line h [] rest]
  simp only [List.reverse_nil, List.nil_append]
  rw [rustLines]

theorem parse_quoted_directive_quoted (d X : List Char) (h : quoteChar ∉ X) :
    parse_quoted_directive (d ++ (' ' :: quoteChar :: (X ++ [quoteChar]))) d = some X := by
  have hpre : d.isPrefixOf (d ++ (' ' :: quoteChar :: (X ++ [quoteChar]))) = true :=
    List.isPrefixOf_iff_prefix.mpr (List.prefix_append _ _)
  rw [parse_quoted_directive, if_pos hpre, List.drop_left]
  rw [trimLeft_cons_ws _ _ (by decide), trimLeft_cons_not_ws _ _ (by decide)]
  show (if quoteChar = quoteChar ∨ quoteChar = squoteChar then
      if (X ++ [quoteChar]).contains quoteChar = true then
        some (List.takeWhile (fun c => c != quoteChar) (X ++ [quoteChar]))
      else none
    else none) = some X
  rw [if_pos (Or.inl rfl), if_pos (contains_append_cons_self X [] quoteChar),
    takeWhile_bne_append X [] quoteChar h]

theorem not_mem_brewManifestLine (X : List Char) (c : Char) (hc1 : c ∉ toChars "brew ")
    (hc2 : c ≠ quoteChar) (hX : c ∉ X) : c ∉ brewManifestLine X := by
  rw [brewManifestLine]
  simp only [List.mem_append, List.mem_cons, List.mem_singleton, not_or]
  exact ⟨hc1, hc2, hX, hc2, List.not_mem_nil c⟩

theorem not_mem_caskManifestLine (X : List Char) (c : Char) (hc1 : c ∉ toChars "cask ")
    (hc2 : c ≠ quoteChar) (hX : c ∉ X) : c ∉ caskManifestLine X := by
  rw [caskManifestLine]
  simp only [List.mem_append, List.mem_cons, List.mem_singleton, not_or]
  exact ⟨hc1, hc2, hX, hc2, List.not_mem_nil c⟩

theorem brewManifestLine_shape (X : List Char) :
    brewManifestLine X = toChars "brew" ++ (' ' :: quoteChar :: (X ++ [quoteChar])) := rfl

theorem caskManifestLine_shape (X : List Char) :
    caskManifestLine X = toChars "cask" ++ (' ' :: quoteChar :: (X ++ [quoteChar])) := rfl

theorem parse_brewfile_entry_brewLine (X : List Char) (h : quoteChar ∉ X) :
    parse_brewfile_entry (brewManifestLine X) = some X := by
  have hcask : parse_quoted_directive (brewManifestLine X) (toChars "cask") = none := rfl
  have htap : (toChars "tap ").isPrefixOf (brewManifestLine X) = false := rfl
  have hbrew : parse_quoted_directive (brewManifestLine X) (toChars "brew") = some X := by
    rw [brewManifestLine_shape]
    exact parse_quoted_directive_quoted (toChars "brew") X h
  rw [parse_brewfile_entry, if_neg (by simp [htap]), hcask, hbrew]

theorem parse_brewfile_entry_caskLine (X : List Char) (h : quoteChar ∉ X) :
    parse_brewfile_entry (caskManifestLine X) = some (toChars "cask:" ++ X) := by
  have htap : (toChars "tap ").isPrefixOf (caskManifestLine X) = false := rfl
  have hcask : parse_quoted_directive (caskManifestLine X) (toChars "cask") = some X := by
    rw [caskManifestLine_shape]
    exact parse_quoted_directive_quoted (toChars "cask") X h
  rw [parse_brewfile_entry, if_neg (by simp [htap]), hcask]

theorem parseManifestLine_brewLine (X : List Char) (h1 : '#' ∉ X) (h2 : quoteChar ∉ X) :
    parseManifestLine (brewManifestLine X) = some X := by
  have hline : brewManifestLine X
      = 'b' :: (('r' :: 'e' :: 'w' :: ' ' :: quoteChar :: X) ++ [quoteChar]) := rfl
  have hhash : '#' ∉ brewManifestLine X :=
    not_mem_brewManifestLine X '#' (by decide) (by decide) h1
  have ht : (brewManifestLine X).takeWhile (fun x => x != '#') = brewManifestLine X :=
    takeWhile_bne_of_not_mem _ _ hhash
  have htrim : rustTrim (brewManifestLine X) = brewManifestLine X := by
    rw [hline]
    exact rustTrim_keep _ _ _ (by decide) (by decide)
  have hne : (brewManifestLine X).isEmpty = false := by
    rw [hline]
    rfl
  rw [parseManifestLine]
  simp only [ht, htrim, hne, Bool.false_eq_true, if_false]
  exact parse_brewfile_entry_brewLine X h2

theorem parseManifestLine_caskLine (X : List Char) (h1 : '#' ∉ X) (h2 : quoteChar ∉ X) :
    parseManifestLine (caskManifestLine X) = some (toChars "cask:" ++ X) := by
  have hline : caskManifestLine X
      = 'c' :: (('a' :: 's' :: 'k' :: ' ' :: quoteChar :: X) ++ [quoteChar]) := rfl
  have hhash : '#' ∉ caskManifestLine X :=
    not_mem_caskManifestLine X '#' (by decide) (by decide) h1
  have ht : (caskManifestLine X).takeWhile (fun x => x != '#') = caskManifestLine X :=
    takeWhile_bne_of_not_mem _ _ hhash
  have htrim : rustTrim (caskManifestLine X) = caskManifestLine X := by
    rw [hline]
    exact rustTrim_keep _ _ _ (by decide) (by decide)
  have hne : (caskManifestLine X).isEmpty = false := by
    rw [hline]
    rfl
  rw [parseManifestLine]
  simp only [ht, htrim, hne, Bool.false_eq_true, if_false]
  exact parse_brewfile_entry_caskLine X h2

theorem loadManifestAux_eq (ls : List (List Char)) :
    ∀ seen, loadManifestAux ls seen = dedupSeen seen (ls.filterMap parseManifestLine) := by
  induction ls with
  | nil => intro seen; rfl
  | cons l ls ih =>
    intro seen
    cases hp : parseManifestLine l with
    | none => simp [loadManifestAux, List.filterMap_cons, hp, ih]
    | some p => simp [loadManifestAux, List.filterMap_cons, hp, ih, dedupSeen]

theorem dedupSeen_eq_filter (l : List (List Char)) :
    ∀ seen, dedupSeen seen l = (dedupFirst l).filter (fun y => !(seen.contains y)) := by
  induction l with
  | nil => intro seen; rfl
  | cons x xs ih =>
    intro seen
    by_cases hc : seen.contains x = true
    · have hpx : (!(seen.contains x)) = false := by rw [hc]; rfl
      rw [dedupFirst, List.filter_cons, hpx]
      simp only [Bool.false_eq_true, if_false]
      rw [dedupSeen, if_pos hc, ih seen, List.filter_filter]
      have : (fun y => !(seen.contains y) && (y != x)) = fun y => !(seen.contains y) := by
        funext y
        by_cases hyx : y = x
        · subst hyx; rw [hc]; rfl
        · have : (y != x) = true := by simp [bne_iff_ne, hyx]
          rw [this, Bool.and_true]
      rw [this]
    · have hcf : seen.contains x = false := by
        cases hcc : seen.contains x
        · rfl
        · exact absurd hcc hc
      have hpx : (!(seen.contains x)) = true := by rw [hcf]; rfl
      rw [dedupFirst, List.filter_cons, hpx]
      simp only [if_true]
      rw [dedupSeen, if_neg hc, ih (x :: seen), List.filter_filter]
      have : (fun y => !((x :: seen).contains y)) = fun y => !(seen.contains y) && (y != x) := by
        funext y
        rw [List.contains_cons, Bool.not_or, Bool.and_comm]
        rfl
      rw [this]

theorem dedupSeen_nil (l : List (List Char)) : dedupSeen [] l = dedupFirst l := by
  rw [dedupSeen_eq_filter l []]
  have : (fun y : List Char => !(List.contains [] y)) = fun _ => true := rfl
  rw [this]
  exact List.filter_true _

theorem load_manifest_core_eq_dedupFirst (contents : List Char) :
    load_manifest_core contents = dedupFirst (manifestTokens contents) := by
  rw [load_manifest_core, manifestTokens, loadManifestAux_eq, dedupSeen_nil]

theorem mem_dedupFirst (x : List Char) (l : List (List Char)) :
    x ∈ dedupFirst l ↔ x ∈ l := by
  induction l with
  | nil => simp [dedupFirst]
  | cons a xs ih =>
    simp only [dedupFirst, List.mem_cons, List.mem_filter, ih, bne_iff_ne, ne_eq]
    constructor
    · rintro (h | ⟨h, _⟩)
      · exact Or.inl h
      · exact Or.inr h
    · rintro (h | h)
      · exact Or.inl h
      · by_cases hxa : x = a
        · exact Or.inl hxa
        · exact Or.inr ⟨h, hxa⟩

theorem foldl_tailStep (ls : List (List Char)) :
    ∀ acc, acc.length ≤ TAIL_LINES →
      List.foldl tailStep acc ls = (acc ++ ls).drop (acc.length + ls.length - TAIL_LINES) := by
  induction ls with
  | nil =>
    intro acc h
    have hz : acc.length - TAIL_LINES = 0 := by omega
    simp only [List.foldl_nil, List.append_nil, List.length_nil, Nat.add_zero, hz,
      List.drop_zero]
  | cons l ls ih =>
    intro acc h
    rw [List.foldl_cons]
    by_cases hfull : acc.length = TAIL_LINES
    · have hstep : tailStep acc l = acc.drop 1 ++ [l] := by rw [tailStep, if_pos hfull]
      have hlen : (acc.drop 1 ++ [l]).length ≤ TAIL_LINES := by
        simp only [TAIL_LINES, List.length_append, List.length_drop, List.length_cons,
          List.length_nil]
        simp only [TAIL_LINES] at hfull
        omega
      rw [hstep, ih _ hlen]
      have h1 : (1 : Nat) ≤ acc.length := by
        rw [hfull]; decide
      have e1 : acc.drop 1 ++ ([l] ++ ls) = (acc ++ ([l] ++ ls)).drop 1 :=
        (List.drop_append_of_le_length h1).symm
      have eidx : (acc.drop 1 ++ [l]).length + ls.length - TAIL_LINES = ls.length := by
        simp only [TAIL_LINES, List.length_append, List.length_drop, List.length_cons,
          List.length_nil]
        simp only [TAIL_LINES] at hfull
        omega
      have eidx2 : acc.length + (l :: ls).length - TAIL_LINES = 1 + ls.length := by
        simp only [TAIL_LINES, List.length_cons]
        simp only [TAIL_LINES] at hfull
        omega
      rw [eidx, eidx2, List.append_assoc, e1, List.drop_drop]
      rfl
    · have hlt : acc.length < TAIL_LINES := lt_of_le_of_ne h hfull
      have hstep : tailStep acc l = acc ++ [l] := by rw [tailStep, if_neg hfull]
      have hlen : (acc ++ [l]).length ≤ TAIL_LINES := by
        simp only [List.length_append, List.length_cons, List.length_nil]
        omega
      rw [hstep, ih _ hlen]
      have eidx : (acc ++ [l]).length + ls.length - TAIL_LINES
          = acc.length + (l :: ls).length - TAIL_LINES := by
        simp only [List.length_append, List.length_cons, List.length_nil]
        omega
      rw [eidx, List.append_assoc]
      rfl

theorem capture_tail_eq (lines : List (List Char)) :
    capture_tail lines = lines.drop (lines.length - TAIL_LINES) := by
  rw [capture_tail, foldl_tailStep lines [] (by decide)]
  simp

theorem le_decFold (s : List Char) :
    ∀ a : Nat, a ≤ s.foldl (fun acc c => acc * 10 + (c.toNat - 48)) a := by
  induction s with
  | nil => intro a; exact le_refl a
  | cons c cs ih =>
    intro a
    rw [List.foldl_cons]
    exact le_trans (by omega) (ih (a * 10 + (c.toNat - 48)))

theorem parseUsizeAux_digits (s : List Char) :
    ∀ a : Nat, (∀ c ∈ s, c.isDigit = true) →
      s.foldl (fun acc c => acc * 10 + (c.toNat - 48)) a ≤ usizeMax →
      parseUsizeAux s a = some (s.foldl (fun acc c => acc * 10 + (c.toNat - 48)) a) := by
  induction s with
  | nil => intro a _ _; rfl
  | cons c cs ih =>
    intro a hdig hle
    have hd : c.isDigit = true := hdig c (List.mem_cons_self c cs)
    have hdv : digitVal c = some (c.toNat - 48) := by rw [digitVal, if_pos hd]
    rw [List.foldl_cons] at hle ⊢
    have hbound : a * 10 + (c.toNat - 48) ≤ usizeMax :=
      le_trans (le_decFold cs (a * 10 + (c.toNat - 48))) hle
    rw [parseUsizeAux, hdv]
    simp only [if_pos hbound]
    exact ih _ (fun x hx => hdig x (List.mem_cons_of_mem c hx)) hle

theorem parseUsize_digits (s : List Char) (hne : s ≠ [])
    (hdig : ∀ c ∈ s, c.isDigit = true) (hle : decValue s ≤ usizeMax) :
    parseUsize s = some (decValue s) := by
  cases s with
  | nil => exact absurd rfl hne
  | cons c cs =>
    have hplus : ¬ c = '+' := by
      intro e
      have := hdig c (List.mem_cons_self c cs)
      rw [e] at this
      exact absurd this (by decide)
    have hu : parseUsize (c :: cs) = parseUsizeAux (c :: cs) 0 := by
      simp only [parseUsize, if_neg hplus]
    rw [hu]
    exact parseUsizeAux_digits (c :: cs) 0 hdig hle

theorem dumpContent_eq_flatten (ns : List (List Char)) :
    dumpContent ns = (ns.map brewDumpLine).flatten := by
  rw [dumpContent]
  suffices h : ∀ (l : List (List Char)) (a : List Char),
      l.foldl (fun acc keg => acc ++ brewDumpLine keg) a = a ++ (l.map brewDumpLine).flatten by
    rw [h ns []]; rfl
  intro l
  induction l with
  | nil => intro a; simp
  | cons n ns ih =>
    intro a
    rw [List.foldl_cons, ih]
    simp

theorem brewDumpLine_eq (n : List Char) :
    brewDumpLine n = brewManifestLine n ++ [nlChar] := by
  rw [brewDumpLine, brewManifestLine]
  simp

theorem rustLines_dumpContent (ns : List (List Char)) (h : ∀ n ∈ ns, nlChar ∉ n) :
    rustLines (dumpContent ns) = ns.map brewManifestLine := by
  rw [dumpContent_eq_flatten]
  induction ns with
  | nil => rfl
  | cons n ns ih =>
    have hn : nlChar ∉ brewManifestLine n :=
      not_mem_brewManifestLine n nlChar (by decide) (by decide)
        (h n (List.mem_cons_self n ns))
    have hline : (List.map brewDumpLine (n :: ns)).flatten
        = brewManifestLine n ++ nlChar :: (List.map brewDumpLine ns).flatten := by
      simp only [List.map_cons, List.flatten_cons, brewDumpLine_eq]
      simp
    rw [hline, rustLines_append_line _ _ hn]
    have hstrip : stripCR (brewManifestLine n) = brewManifestLine n := by
      have : brewManifestLine n = (toChars "brew " ++ quoteChar :: n) ++ [quoteChar] := by
        rw [brewManifestLine]; simp
      rw [this]
      exact stripCR_append_not_cr _ _ (by decide)
    rw [hstrip, ih (fun x hx => h x (List.mem_cons_of_mem n hx))]
    rfl

theorem manifestTokens_dumpContent (ns : List (List Char))
    (h : ∀ n ∈ ns, nlChar ∉ n ∧ '#' ∉ n ∧ quoteChar ∉ n) :
    manifestTokens (dumpContent ns) = ns := by
  rw [manifestTokens, rustLines_dumpContent ns (fun n hn => (h n hn).1)]
  induction ns with
  | nil => rfl
  | cons n ns ih =>
    rw [List.map_cons, List.filterMap_cons]
    rw [parseManifestLine_brewLine n (h n (List.mem_cons_self n ns)).2.1
      (h n (List.mem_cons_self n ns)).2.2]
    rw [ih (fun x hx => h x (List.mem_cons_of_mem n hx))]

/-! ## Claim theorems -/

set_option maxRecDepth 10000 in
/-- C1: `load_manifest` parses each line independently: blank lines and
comment-only lines are ignored, everything from the first `#` on is
stripped, lines beginning `tap ` are ignored, `brew "X"` yields `X`,
`cask "X"` yields `cask:X`, any other non-empty trimmed token is taken
verbatim, duplicates are removed keeping the first occurrence in order,
and the S4 manifest parses to `["wget", "cask:docker"]`. -/
theorem c1_manifest_line_parsing :
    (∀ contents : List Char,
      load_manifest_core contents = dedupFirst (manifestTokens contents)) ∧
    (∀ line : List Char, rustTrim (line.takeWhile (fun c => c != '#')) = [] →
      parseManifestLine line = none) ∧
    (∀ a b : List Char, '#' ∉ a →
      parseManifestLine (a ++ '#' :: b) = parseManifestLine a) ∧
    (∀ line : List Char,
      (toChars "tap ").isPrefixOf (rustTrim (line.takeWhile (fun c => c != '#'))) = true →
      parseManifestLine line = none) ∧
    (∀ X : List Char, '#' ∉ X → quoteChar ∉ X →
      parseManifestLine (brewManifestLine X) = some X) ∧
    (∀ X : List Char, '#' ∉ X → quoteChar ∉ X →
      parseManifestLine (caskManifestLine X) = some (toChars "cask:" ++ X)) ∧
    (∀ line entry : List Char, rustTrim (line.takeWhile (fun c => c != '#')) = entry →
      entry ≠ [] → (toChars "tap ").isPrefixOf entry = false →
      parse_quoted_directive entry (toChars "cask") = none →
      parse_quoted_directive entry (toChars "brew") = none →
      parseManifestLine line = some entry) ∧
    load_manifest_core exampleManifest = [toChars "wget", toChars "cask:docker"] := by
  refine ⟨load_manifest_core_eq_dedupFirst, ?_, ?_, ?_,
    parseManifestLine_brewLine, parseManifestLine_caskLine, ?_, by decide⟩
  · intro line h
    rw [parseManifestLine]
    simp only [h, List.isEmpty_nil, if_true]
  · intro a b h
    rw [parseManifestLine, parseManifestLine, takeWhile_bne_append a b '#' h,
      takeWhile_bne_of_not_mem a '#' h]
  · intro line h
    rw [parseManifestLine]
    cases hentry : rustTrim (line.takeWhile (fun c => c != '#')) with
    | nil =>
      rw [hentry] at h
      exact absurd h (by decide)
    | cons e es =>
      rw [hentry] at h
      simp only [List.isEmpty_cons, Bool.false_eq_true, if_false]
      rw [parse_brewfile_entry, if_pos h]
  · intro line entry htrim hne htap hcask hbrew
    rw [parseManifestLine, htrim]
    have hempty : entry.isEmpty = false := by
      cases entry with
      | nil => exact absurd rfl hne
      | cons e es => rfl
    simp only [hempty, Bool.false_eq_true, if_false]
    rw [parse_brewfile_entry, if_neg (by simp [htap]), hcask, hbrew]

/-- C1 witness: the general `brew "X"` clause of C1 applied at `X = "wget"`. -/
theorem c1_witness :
    parseManifestLine (brewManifestLine (toChars "wget")) = some (toChars "wget") :=
  c1_manifest_line_parsing.2.2.2.2.1 (toChars "wget") (by decide) (by decide)

/-- C6: a manifest that yields no formula tokens at all makes
`load_manifest` return a `FileError`, and a successful `load_manifest`
never returns an empty formula list. -/
theorem c6_empty_manifest_error :
    (∀ path contents : List Char, manifestTokens contents = [] →
      load_manifest path contents = .error (.FileError
        (toChars "manifest " ++ path ++ toChars " did not contain any formulas"))) ∧
    (∀ (path contents : List Char) (res : List (List Char)),
      load_manifest path contents = .ok res → res ≠ []) := by
  constructor
  · intro path contents h
    have hcore : load_manifest_core contents = [] := by
      rw [load_manifest_core_eq_dedupFirst, h]
      rfl
    rw [load_manifest]
    simp only [hcore, List.isEmpty_nil, if_true]
  · intro path contents res hok
    rw [load_manifest] at hok
    cases hempty : (load_manifest_core contents).isEmpty with
    | true =>
      rw [hempty] at hok
      simp at hok
    | false =>
      rw [hempty] at hok
      simp only [Bool.false_eq_true, if_false, Except.ok.injEq] at hok
      intro he
      rw [hok, he] at hempty
      exact absurd hempty (by decide)

/-- C6 witness: a comment-only manifest produces the `FileError`. -/
theorem c6_witness :
    load_manifest (toChars "Brewfile") (toChars "# nothing here") = .error (.FileError
      (toChars "manifest " ++ toChars "Brewfile" ++ toChars " did not contain any formulas")) :=
  c6_empty_manifest_error.1 (toChars "Brewfile") (toChars "# nothing here") (by decide)

/-- C9: directives accept both double and single quotes
(`brew 'wget'` and `brew "wget"` both yield `wget`, likewise for cask);
a directive whose argument is not quoted is not treated as a directive,
and such a line is returned verbatim as the formula name. -/
theorem c9_quote_styles :
    parse_brewfile_entry (toChars "brew " ++ squoteChar :: (toChars "wget" ++ [squoteChar]))
      = some (toChars "wget") ∧
    parse_brewfile_entry (brewManifestLine (toChars "wget")) = some (toChars "wget") ∧
    parse_brewfile_entry (toChars "cask " ++ squoteChar :: (toChars "docker" ++ [squoteChar]))
      = some (toChars "cask:docker") ∧
    parse_brewfile_entry (caskManifestLine (toChars "docker")) = some (toChars "cask:docker") ∧
    (∀ line d : List Char,
      (∀ c, (trimLeft (line.drop d.length)).head? = some c → c ≠ quoteChar ∧ c ≠ squoteChar) →
      parse_quoted_directive line d = none) ∧
    (∀ line : List Char, (toChars "tap ").isPrefixOf line = false →
      parse_quoted_directive line (toChars "cask") = none →
      parse_quoted_directive line (toChars "brew") = none →
      parse_brewfile_entry line = some line) := by
  refine ⟨by decide, by decide, by decide, by decide, ?_, ?_⟩
  · intro line d h
    rw [parse_quoted_directive]
    by_cases hpre : d.isPrefixOf line = true
    · rw [if_pos hpre]
      cases htl : trimLeft (line.drop d.length) with
      | nil => rfl
      | cons q tail =>
        have hq := h q (by rw [htl]; rfl)
        show (if q = quoteChar ∨ q = squoteChar then
            if tail.contains q = true then some (List.takeWhile (fun c => c != q) tail) else none
          else none) = none
        rw [if_neg (by rintro (e | e) <;> [exact hq.1 e; exact hq.2 e])]
    · rw [if_neg hpre]
  · intro line htap hcask hbrew
    rw [parse_brewfile_entry, if_neg (by simp [htap]), hcask, hbrew]

/-- C9 witness: the verbatim clause of C9 applied to the line `jq`. -/
theorem c9_witness : parse_brewfile_entry (toChars "jq") = some (toChars "jq") :=
  c9_quote_styles.2.2.2.2.2 (toChars "jq") (by decide) (by decide) (by decide)

/-- C4: for a non-empty list of installed names, each non-empty and free of
`#`, `"` and newline characters, parsing the manifest produced by
`dump_to_file` yields exactly the same set of names (order-insensitively). -/
theorem c4_dump_parse_roundtrip :
    ∀ (path : List Char) (names : List (List Char)), names ≠ [] →
      (∀ n ∈ names, n ≠ [] ∧ '#' ∉ n ∧ quoteChar ∉ n ∧ nlChar ∉ n) →
      ∃ res, load_manifest path (dumpContent names) = .ok res ∧
        ∀ x, x ∈ res ↔ x ∈ names := by
  intro path names hne h
  have htok : manifestTokens (dumpContent names) = names :=
    manifestTokens_dumpContent names
      (fun n hn => ⟨(h n hn).2.2.2, (h n hn).2.1, (h n hn).2.2.1⟩)
  have hcore : load_manifest_core (dumpContent names) = dedupFirst names := by
    rw [load_manifest_core_eq_dedupFirst, htok]
  have hempty : (dedupFirst names).isEmpty = false := by
    cases names with
    | nil => exact absurd rfl hne
    | cons n ns => rfl
  refine ⟨dedupFirst names, ?_, ?_⟩
  · rw [load_manifest]
    simp only [hcore, hempty, Bool.false_eq_true, if_false]
  · intro x
    exact mem_dedupFirst x names

/-- C4 witness: the round trip at the one-element installed set `["jq"]`. -/
theorem c4_witness :
    ∃ res, load_manifest (toChars "Brewfile") (dumpContent [toChars "jq"]) = .ok res ∧
      ∀ x, x ∈ res ↔ x ∈ [toChars "jq"] :=
  c4_dump_parse_roundtrip (toChars "Brewfile") [toChars "jq"] (by decide) (by decide)

/-- C10: `dump_to_file` on an existing target without `--force` returns a
`FileError` saying the file already exists and leaves the old contents
untouched; with `--force` or a fresh target it writes exactly one
`brew "<name>"` line per installed record. -/
theorem c10_dump_overwrite_guard :
    ∀ (path old : List Char) (installed : List (List Char)),
      dump_to_file path true false old installed
        = (.error (.FileError (alreadyExistsMsg path)), old) ∧
      containsSeq (toChars "already exists") (alreadyExistsMsg path) = true ∧
      (∀ fileExists force : Bool, force = true ∨ fileExists = false →
        dump_to_file path fileExists force old installed = (.ok (), dumpContent installed)) ∧
      dumpContent installed = (installed.map brewDumpLine).flatten := by
  intro path old installed
  refine ⟨rfl, ?_, ?_, dumpContent_eq_flatten installed⟩
  · have hsplit : toChars " already exists (use --force to overwrite)"
        = toChars " " ++ (toChars "already exists" ++ toChars " (use --force to overwrite)") := by
      decide
    have hmsg : alreadyExistsMsg path
        = ((toChars "file " ++ path) ++ toChars " ") ++
          (toChars "already exists" ++ toChars " (use --force to overwrite)") := by
      rw [alreadyExistsMsg, hsplit]
      simp [List.append_assoc]
    rw [hmsg]
    exact containsSeq_of_infix _ _ _
  · intro fileExists force hforce
    rcases hforce with hf | he
    · subst hf
      rw [dump_to_file]
      simp
    · subst he
      rw [dump_to_file]
      simp

/-- C10 witness: with `--force` the dump overwrites and succeeds. -/
theorem c10_witness :
    dump_to_file (toChars "Brewfile") true true (toChars "old") [toChars "jq"]
      = (.ok (), dumpContent [toChars "jq"]) :=
  (c10_dump_overwrite_guard (toChars "Brewfile") (toChars "old") [toChars "jq"]).2.2.1
    true true (Or.inl rfl)

theorem containsSeq_nil (l : List Char) : containsSeq [] l = true := by
  cases l with
  | nil => rfl
  | cons h t => simp [containsSeq, List.isPrefixOf]

theorem containsSeq_append_right (pre n : List Char) : containsSeq n (pre ++ n) = true := by
  have h := containsSeq_of_infix pre n []
  simp only [List.append_nil] at h
  exact h

/-- C2: on a non-zero exit, `run_build` returns an `ExecutionError` whose
message includes the exit code and the captured stderr tail, falling back
to the stdout tail when the stderr tail is empty; concretely, exit code 7
with `boom-from-stderr` on stderr yields a message containing
`boom-from-stderr` and `7`. -/
theorem c2_run_build_error_message :
    (∀ (code : Option Int) (stdout_tail stderr_tail : List (List Char)), code ≠ some 0 →
      stderr_tail ≠ [] →
      ∃ m, run_build_result code stdout_tail stderr_tail = .error (.ExecutionError m) ∧
        containsSeq (exitCodeDebug code) m = true ∧
        containsSeq (List.intercalate [nlChar] stderr_tail) m = true) ∧
    (∀ (code : Option Int) (stdout_tail : List (List Char)), code ≠ some 0 →
      ∃ m, run_build_result code stdout_tail [] = .error (.ExecutionError m) ∧
        containsSeq (exitCodeDebug code) m = true ∧
        containsSeq (List.intercalate [nlChar] stdout_tail) m = true) ∧
    (∃ m, run_build_result (some 7) [] [toChars "boom-from-stderr"]
        = .error (.ExecutionError m) ∧
      containsSeq (toChars "boom-from-stderr") m = true ∧
      containsSeq (toChars "7") m = true) := by
  have hbase : ∀ code : Option Int,
      containsSeq (exitCodeDebug code)
        (toChars "source build failed (exit code: " ++ exitCodeDebug code ++ [')']) = true := by
    intro code
    have e : toChars "source build failed (exit code: " ++ exitCodeDebug code ++ [')']
        = toChars "source build failed (exit code: " ++ (exitCodeDebug code ++ [')']) := by
      simp [List.append_assoc]
    rw [e]
    exact containsSeq_of_infix _ _ _
  refine ⟨?_, ?_, ?_⟩
  · intro code sout serr hcode hserr
    have hserrE : serr.isEmpty = false := by
      cases serr with
      | nil => exact absurd rfl hserr
      | cons s ss => rfl
    refine ⟨(toChars "source build failed (exit code: " ++ exitCodeDebug code ++ [')'])
      ++ nlChar :: List.intercalate [nlChar] serr, ?_, ?_, ?_⟩
    · rw [run_build_result]
      simp only [if_neg hcode, hserrE, Bool.not_false, if_pos rfl, if_true]
    · have e : (toChars "source build failed (exit code: " ++ exitCodeDebug code ++ [')'])
          ++ nlChar :: List.intercalate [nlChar] serr
          = toChars "source build failed (exit code: "
            ++ (exitCodeDebug code ++ ([')'] ++ nlChar :: List.intercalate [nlChar] serr)) := by
        simp [List.append_assoc]
      rw [e]
      exact containsSeq_of_infix _ _ _
    · have e : (toChars "source build failed (exit code: " ++ exitCodeDebug code ++ [')'])
          ++ nlChar :: List.intercalate [nlChar] serr
          = ((toChars "source build failed (exit code: " ++ exitCodeDebug code ++ [')'])
            ++ [nlChar]) ++ List.intercalate [nlChar] serr := by
        simp
      rw [e]
      exact containsSeq_append_right _ _
  · intro code sout hcode
    cases sout with
    | nil =>
      refine ⟨toChars "source build failed (exit code: " ++ exitCodeDebug code ++ [')'],
        ?_, hbase code, ?_⟩
      swap
      · have hnil : List.intercalate [nlChar] ([] : List (List Char)) = [] := rfl
        rw [hnil]
        exact containsSeq_nil _
      rw [run_build_result]
      simp only [if_neg hcode]
      rfl
    | cons s ss =>
      refine ⟨(toChars "source build failed (exit code: " ++ exitCodeDebug code ++ [')'])
        ++ nlChar :: List.intercalate [nlChar] (s :: ss), ?_, ?_, ?_⟩
      · rw [run_build_result]
        simp only [if_neg hcode]
        rfl
      · have e : (toChars "source build failed (exit code: " ++ exitCodeDebug code ++ [')'])
            ++ nlChar :: List.intercalate [nlChar] (s :: ss)
            = toChars "source build failed (exit code: "
              ++ (exitCodeDebug code ++ ([')'] ++ nlChar :: List.intercalate [nlChar] (s :: ss))) := by
          simp [List.append_assoc]
        rw [e]
        exact containsSeq_of_infix _ _ _
      · have e : (toChars "source build failed (exit code: " ++ exitCodeDebug code ++ [')'])
            ++ nlChar :: List.intercalate [nlChar] (s :: ss)
            = ((toChars "source build failed (exit code: " ++ exitCodeDebug code ++ [')'])
              ++ [nlChar]) ++ List.intercalate [nlChar] (s :: ss) := by
          simp
        rw [e]
        exact containsSeq_append_right _ _
  · exact ⟨toChars "source build failed (exit code: Some(7))" ++ nlChar :: toChars "boom-from-stderr",
      by decide, by decide, by decide⟩

/-- C2 witness: the stderr clause of C2 applied at exit code 5 and a
one-line stderr tail. -/
theorem c2_witness :
    ∃ m, run_build_result (some 5) [toChars "out"] [toChars "err"]
        = .error (.ExecutionError m) ∧
      containsSeq (exitCodeDebug (some 5)) m = true ∧
      containsSeq (List.intercalate [nlChar] [toChars "err"]) m = true :=
  c2_run_build_error_message.1 (some 5) [toChars "out"] [toChars "err"]
    (by decide) (by decide)

/-- C5: the captured tail is exactly the last `min(n, 40)` lines of the
stream in original order, and the buffer never holds more than 40 lines. -/
theorem c5_tail_buffer :
    ∀ lines : List (List Char),
      capture_tail lines = lines.drop (lines.length - TAIL_LINES) ∧
      (capture_tail lines).length = min lines.length TAIL_LINES ∧
      (∀ k, ((lines.take k).foldl tailStep []).length ≤ TAIL_LINES) := by
  intro lines
  refine ⟨capture_tail_eq lines, ?_, ?_⟩
  · rw [capture_tail_eq, List.length_drop]
    omega
  · intro k
    have h : (lines.take k).foldl tailStep [] = capture_tail (lines.take k) := rfl
    rw [h, capture_tail_eq, List.length_drop]
    omega

/-- C8 (amended): `find_ruby` tries `ruby` then `/usr/bin/ruby` in order and
returns the first whose `--version` succeeds; when none succeeds it returns
`ExecutionError` with the message
`ruby not found — required for building from source`. -/
theorem c8_find_ruby_order :
    ∀ versionOk : List Char → Bool,
      (versionOk (toChars "ruby") = true → find_ruby versionOk = .ok (toChars "ruby")) ∧
      (versionOk (toChars "ruby") = false → versionOk (toChars "/usr/bin/ruby") = true →
        find_ruby versionOk = .ok (toChars "/usr/bin/ruby")) ∧
      ((∀ c ∈ ruby_candidates, versionOk c = false) →
        find_ruby versionOk = .error (.ExecutionError rubyMissingMsg)) := by
  intro versionOk
  refine ⟨?_, ?_, ?_⟩
  · intro h1
    rw [find_ruby, ruby_candidates, List.find?_cons_of_pos _ h1]
  · intro h1 h2
    rw [find_ruby, ruby_candidates, List.find?_cons_of_neg _ (by rw [h1]; decide),
      List.find?_cons_of_pos _ h2]
  · intro h
    have h1 := h (toChars "ruby") (by rw [ruby_candidates]; exact List.mem_cons_self _ _)
    have h2 := h (toChars "/usr/bin/ruby")
      (by rw [ruby_candidates]; exact List.mem_cons_of_mem _ (List.mem_cons_self _ _))
    rw [find_ruby, ruby_candidates, List.find?_cons_of_neg _ (by rw [h1]; decide),
      List.find?_cons_of_neg _ (by rw [h2]; decide), List.find?_nil]

/-- C8 counterexample: the claimed error message
`required interpreter not found` is not the one the code produces — when no
candidate works the message is
`ruby not found — required for building from source`, which does not even
contain the claimed text. -/
theorem c8_counterexample :
    find_ruby (fun _ => false) = .error (.ExecutionError rubyMissingMsg) ∧
    rubyMissingMsg ≠ toChars "required interpreter not found" ∧
    containsSeq (toChars "required interpreter not found") rubyMissingMsg = false :=
  ⟨rfl, by decide, by decide⟩

/-- C8 witness: the first-candidate clause applied to an oracle accepting
every candidate. -/
theorem c8_witness : find_ruby (fun _ => true) = .ok (toChars "ruby") :=
  (c8_find_ruby_order (fun _ => true)).1 rfl

/-- C3 counterexample: when the source download fails, `execute` returns
the error with the work directory still present — it is not removed on
this error path, contrary to the claim. -/
theorem c3_counterexample :
    executeModel ⟨.ok (), .error (.FileError (toChars "download failed")),
        .ok (), .ok (), .ok (), .ok ()⟩
      = (.error (.FileError (toChars "download failed")), true) := rfl

/-- C3 (amended): the work directory is removed on the success path only;
on every error path after a successful preparation the call returns with
the work directory still in place (it is deleted by `prepare_work_dir` at
the start of the next build of the same formula). -/
theorem c3_workdir_cleanup :
    ∀ o : BuildStepOutcomes,
      ((executeModel o).1 = .ok () → (executeModel o).2 = false) ∧
      (o.prepare = .ok () → ∀ e, (executeModel o).1 = .error e → (executeModel o).2 = true) := by
  intro o
  obtain ⟨p, d, s, c, r, b⟩ := o
  cases p <;> cases d <;> cases s <;> cases c <;> cases r <;> cases b <;>
    exact ⟨by simp [executeModel], by simp [executeModel]⟩

/-- C3 witness: the success clause applied to an all-successful build. -/
theorem c3_witness :
    (executeModel ⟨.ok (), .ok (), .ok (), .ok (), .ok (), .ok ()⟩).2 = false :=
  (c3_workdir_cleanup ⟨.ok (), .ok (), .ok (), .ok (), .ok (), .ok ()⟩).1 rfl

/-- C7 (amended): `--concurrency` is validated at parse time: `"0"` is
rejected with `concurrency must be at least 1`, any string `usize` cannot
parse (non-integer or past `usize::MAX`) is rejected as invalid, every
digit string with positive value up to `usize::MAX` is accepted at its
value, and the absent-flag default `"20"` parses to 20. -/
theorem c7_concurrency_parsing :
    parse_concurrency (toChars "0") = .error (toChars "concurrency must be at least 1") ∧
    (∀ s : List Char, parseUsize s = none →
      parse_concurrency s = .error (toChars "invalid value " ++ squoteChar :: s ++
        squoteChar :: toChars ": expected a positive integer")) ∧
    (∀ s : List Char, s ≠ [] → (∀ c ∈ s, c.isDigit = true) → 0 < decValue s →
      decValue s ≤ usizeMax → parse_concurrency s = .ok (decValue s)) ∧
    concurrencyDefault = .ok 20 := by
  refine ⟨by decide, ?_, ?_, by decide⟩
  · intro s h
    simp only [parse_concurrency, h]
  · intro s hne hdig hpos hle
    simp only [parse_concurrency, parseUsize_digits s hne hdig hle]
    rw [if_neg (by omega)]

/-- C7 counterexample: `"18446744073709551616"` (2^64) is a positive-integer
string, yet `parse_concurrency` rejects it because `usize::from_str`
overflows — so not every positive-integer string is accepted. -/
theorem c7_counterexample :
    (∀ c ∈ toChars "18446744073709551616", c.isDigit = true) ∧
    decValue (toChars "18446744073709551616") = 2 ^ 64 ∧
    (∃ m, parse_concurrency (toChars "18446744073709551616") = .error m) := by
  exact ⟨by decide, by decide, ⟨_, rfl⟩⟩

/-- C7 witness: the positive-value clause of C7 applied to the string `4`. -/
theorem c7_witness : parse_concurrency (toChars "4") = .ok (decValue (toChars "4")) :=
  c7_concurrency_parsing.2.2.1 (toChars "4") (by decide) (by decide) (by decide) (by decide)

end Zerobrew
